import Mathlib

/-!
Verification development for the kanzi `IOUtil.hpp` helpers (`createFileList`,
`mkdirAll`) and the abstract `EntropyEncoder` contract of `EntropyEncoder.hpp`.

The C++ functions are shallowly embedded:
  * paths are `List Char`, the platform separator is fixed to `'/'`;
  * the filesystem is an abstract oracle (`FileSys`) giving `stat` modes
    (`st_mode` as a `Nat`, with the POSIX `S_IFREG`/`S_IFDIR` bit constants)
    and `opendir`/`readdir` listings;
  * `std::string::operator[]` accesses with an index outside the string are
    undefined behaviour; they are modelled by `List.get?` together with the
    wrapping `size_t` subtraction `size()-1`, and surface as the distinguished
    outcome `CFLOut.ub`;
  * exceptions (`IOException`) become an error outcome carrying the error code
    and offending path; by-reference mutation of `target` and `files` becomes
    explicit result values;
  * recursion of `createFileList` is bounded by explicit fuel (`none` = fuel
    exhausted); none of the theorems below depend on the fuel beyond it being
    positive.
-/

namespace KanziIO

/-- String literal helper: a C++ `std::string` as a list of characters. -/
def str (s : String) : List Char := s.data

/-- The platform path separator (`PATH_SEPARATOR`), fixed to `'/'`. -/
def pathSeparator : Char := '/'

/-- POSIX `S_IFMT` file-type mask (0o170000). -/
def S_IFMT : Nat := 61440

/-- POSIX `S_IFREG` regular-file bit (0o100000). -/
def S_IFREG : Nat := 32768

/-- POSIX `S_IFDIR` directory bit (0o040000). -/
def S_IFDIR : Nat := 16384

/-- Abstract filesystem oracle: `stat` returns the `st_mode` of a path
(`none` = stat failure), `readDir` returns the entry names produced by
`opendir`/`readdir` (`none` = opendir failure). -/
structure FileSys where
  stat : List Char → Option Nat
  readDir : List Char → Option (List (List Char))

/-- Error codes of the `IOException`s thrown by `createFileList`
(`Error::ERR_OPEN_FILE`, `Error::ERR_READ_FILE`). -/
inductive ErrCode where
  | ERR_OPEN_FILE
  | ERR_READ_FILE
deriving DecidableEq

/-- A thrown `IOException`: error code plus the offending path named in the
message. -/
structure IOEx where
  code : ErrCode
  path : List Char
deriving DecidableEq

/-- Outcome of a `createFileList` call: `ub` = an out-of-bounds
`std::string::operator[]` access (undefined behaviour); `exc` = an
`IOException` escaped, with the caller-visible final values of the
by-reference `target` and `files` arguments; `ok` = normal return, again with
the final `target` and `files`. -/
inductive CFLOut where
  | ub
  | exc (e : IOEx) (target : List Char) (files : List (List Char))
  | ok (target : List Char) (files : List (List Char))
deriving DecidableEq

/-- The `size_t` expression `n - 1`: wraps to `2^64 - 1` when `n = 0`, as in
`target[target.size()-1]` on an empty string. -/
def sizeSub1 (n : Nat) : Nat := if n = 0 then 2 ^ 64 - 1 else n - 1

/-- The recursion-mode test of `createFileList` (IOUtil.hpp lines 62-63):
`(target.size() <= 2) || (target[target.size()-1] != '.') ||
(target[target.size()-2] != PATH_SEPARATOR)`, with the short-circuit
guaranteeing the two indices are in bounds whenever they are read. -/
def isRecursiveTarget (t : List Char) : Bool :=
  if t.length ≤ 2 then true
  else if t.getD (t.length - 1) (Char.ofNat 0) ≠ '.' then true
  else if t.getD (t.length - 2) (Char.ofNat 0) ≠ pathSeparator then true
  else false

/-- Step 1 of `createFileList` as a total function on nonempty targets:
strip a single trailing separator. -/
def step1 (t : List Char) : List Char :=
  if t.getD (t.length - 1) (Char.ofNat 0) = pathSeparator then t.take (t.length - 1) else t

/-- Spec-side definition: the basename of a path, i.e. the portion after the
last separator (the whole path when it contains no separator). -/
def basename (t : List Char) : List Char :=
  (t.reverse.takeWhile (fun c => c ≠ pathSeparator)).reverse

/-- The directory-entry loop of `createFileList` (IOUtil.hpp lines 79-96).
`recur` is the recursive `createFileList(fullpath, files)` call used for
subdirectories in recursive mode; each entry is `stat`-ed first, and only
then is the leading-dot filter applied. -/
def walkEntries (recur : List Char → List (List Char) → Option CFLOut)
    (fs : FileSys) (isRec : Bool) (target : List Char) :
    List (List Char) → List (List Char) → Option CFLOut
  | [], files => some (CFLOut.ok target files)
  | name :: rest, files =>
    let fullpath := target ++ name
    match fs.stat fullpath with
    | none => some (CFLOut.exc ⟨ErrCode.ERR_OPEN_FILE, fullpath⟩ target files)
    | some mode =>
      if name.headD (Char.ofNat 0) ≠ '.' then
        if mode &&& S_IFREG ≠ 0 then
          walkEntries recur fs isRec target rest (files ++ [fullpath])
        else if isRec = true ∧ mode &&& S_IFDIR ≠ 0 then
          match recur fullpath files with
          | none => none
          | some CFLOut.ub => some CFLOut.ub
          | some (CFLOut.exc e _ files2) => some (CFLOut.exc e target files2)
          | some (CFLOut.ok _ files2) => walkEntries recur fs isRec target rest files2
        else
          walkEntries recur fs isRec target rest files
      else
        walkEntries recur fs isRec target rest files

/-- Shallow embedding of `createFileList` (IOUtil.hpp lines 34-105), with
explicit recursion fuel (`none` = fuel exhausted; every theorem holds for all
positive fuel). The caller's by-reference `target` and `files` strings are
returned in the outcome. -/
def createFileListF : Nat → FileSys → List Char → List (List Char) → Option CFLOut
  | 0, _, _, _ => none
  | Nat.succ fuel, fs, target0, files =>
    match target0.get? (sizeSub1 target0.length) with
    | none => some CFLOut.ub
    | some clast =>
      let target1 := if clast = pathSeparator then target0.take (target0.length - 1) else target0
      match fs.stat target1 with
      | none => some (CFLOut.exc ⟨ErrCode.ERR_OPEN_FILE, target1⟩ target1 files)
      | some mode =>
        if mode &&& S_IFREG ≠ 0 then
          match target1.get? 0 with
          | none => some CFLOut.ub
          | some c0 => some (CFLOut.ok target1 (if c0 ≠ '.' then files ++ [target1] else files))
        else if mode &&& S_IFDIR = 0 then
          some (CFLOut.exc ⟨ErrCode.ERR_OPEN_FILE, target1⟩ target1 files)
        else if isRecursiveTarget target1 then
          match target1.get? (sizeSub1 target1.length) with
          | none => some CFLOut.ub
          | some cl2 =>
            let target2 := if cl2 ≠ pathSeparator then target1 ++ [pathSeparator] else target1
            match fs.readDir target2 with
            | none => some (CFLOut.exc ⟨ErrCode.ERR_READ_FILE, target2⟩ target2 files)
            | some entries => walkEntries (createFileListF fuel fs) fs true target2 entries files
        else
          let target2 := target1.take (target1.length - 1)
          match fs.readDir target2 with
          | none => some (CFLOut.exc ⟨ErrCode.ERR_READ_FILE, target2⟩ target2 files)
          | some entries => walkEntries (createFileListF fuel fs) fs false target2 entries files

/-- The paths appended by one non-recursive enumeration of the entries of
directory `t` (trailing separator included in `t`): the entries whose name
does not begin with `'.'` and whose mode has the regular-file bit, mapped to
their full paths. -/
def nonRecListing (fs : FileSys) (t : List Char) (entries : List (List Char)) :
    List (List Char) :=
  entries.filterMap (fun n =>
    match fs.stat (t ++ n) with
    | none => none
    | some m =>
      if n.headD (Char.ofNat 0) ≠ '.' ∧ m &&& S_IFREG ≠ 0 then some (t ++ n) else none)

/-- The normalized directory target produced before enumeration
(IOUtil.hpp lines 65-73): in recursive mode a separator is appended unless
already present, in non-recursive mode the trailing `'.'` is removed. -/
def normalizeDirTarget (t : List Char) : List Char :=
  if isRecursiveTarget t then
    if t.getD (t.length - 1) (Char.ofNat 0) ≠ pathSeparator then t ++ [pathSeparator] else t
  else t.take (t.length - 1)

/-- Result of one `_mkdir` call: success, failure with `errno == EEXIST`, or
failure with any other `errno`. -/
inductive MkdirRes where
  | ok
  | errExist
  | errOther
deriving DecidableEq

/-- Mutable-filesystem state for `mkdirAll`: the set of existing directories
and a permission oracle for directory creation. -/
structure MFs where
  dirs : List (List Char)
  perm : List Char → Bool

/-- Modelled from the spec: `_mkdir` is an external libc call, absent from
the sources.  Per POSIX: an empty path always fails with `ENOENT`; an
existing path fails with `EEXIST`; otherwise creation succeeds exactly when
the caller has permission, any other failure carrying a non-`EEXIST`
`errno`. -/
def mkdirM (fs : MFs) (p : List Char) : MkdirRes × MFs :=
  if p = [] then (MkdirRes.errOther, fs)
  else if p ∈ fs.dirs then (MkdirRes.errExist, fs)
  else if fs.perm p then (MkdirRes.ok, ⟨p :: fs.dirs, fs.perm⟩)
  else (MkdirRes.errOther, fs)

/-- The index loop of `mkdirAll` (IOUtil.hpp lines 112-121): for each index
`i` with `path[i] == PATH_SEPARATOR`, attempt `_mkdir(path.substr(0, i))`,
ignoring `EEXIST` and returning `-1` (`some (-1)`) on any other failure. -/
def mkdirAllAux (path : List Char) : List Nat → MFs → Option Int × MFs
  | [], fs => (none, fs)
  | i :: rest, fs =>
    if path.getD i (Char.ofNat 0) = pathSeparator then
      match mkdirM fs (path.take i) with
      | (MkdirRes.ok, fs2) => mkdirAllAux path rest fs2
      | (MkdirRes.errExist, fs2) => mkdirAllAux path rest fs2
      | (MkdirRes.errOther, fs2) => (some (-1), fs2)
    else mkdirAllAux path rest fs

/-- Shallow embedding of `mkdirAll` (IOUtil.hpp lines 109-129): run the
separator loop over all indices of `path`, then attempt `_mkdir(path)` itself
with the same ignore-`EEXIST` policy; return `0` on success, `-1` on the
first non-benign failure, together with the final filesystem state. -/
def mkdirAll (fs : MFs) (path : List Char) : Int × MFs :=
  match mkdirAllAux path (List.range path.length) fs with
  | (some r, fs2) => (r, fs2)
  | (none, fs2) =>
    match mkdirM fs2 path with
    | (MkdirRes.ok, fs3) => (0, fs3)
    | (MkdirRes.errExist, fs3) => (0, fs3)
    | (MkdirRes.errOther, fs3) => (-1, fs3)

/-- Sequential processing of a list of directory-creation attempts with the
ignore-`EEXIST` policy; `mkdirAllAux` is exactly this applied to the
separator prefixes of the path (bridge lemma below). -/
def processList : List (List Char) → MFs → Option Int × MFs
  | [], fs => (none, fs)
  | q :: rest, fs =>
    match mkdirM fs q with
    | (MkdirRes.ok, fs2) => processList rest fs2
    | (MkdirRes.errExist, fs2) => processList rest fs2
    | (MkdirRes.errOther, fs2) => (some (-1), fs2)

/-- The prefixes attempted by the loop of `mkdirAll` for the given indices:
`path.take i` for each `i` with `path[i] = PATH_SEPARATOR`. -/
def attemptsOf (path : List Char) (idxs : List Nat) : List (List Char) :=
  idxs.filterMap (fun i =>
    if path.getD i (Char.ofNat 0) = pathSeparator then some (path.take i) else none)

/-- All directory-creation attempts a `mkdirAll path` call makes: every
separator prefix, then the full path. -/
def mkdirAttempts (path : List Char) : List (List Char) :=
  attemptsOf path (List.range path.length) ++ [path]

/-- A creation attempt on `q` is benign in state `fs` (does not fail with an
error other than already-exists): `q` is nonempty and either already exists
(`EEXIST`, ignored) or the caller has permission to create it. -/
def benignAttempt (fs : MFs) (q : List Char) : Prop :=
  q ≠ [] ∧ (q ∈ fs.dirs ∨ fs.perm q = true)

instance (fs : MFs) (q : List Char) : Decidable (benignAttempt fs q) := by
  unfold benignAttempt; infer_instance

/-- Lifecycle phase of an entropy encoder (spec section 4.1). -/
inductive EncPhase where
  | active
  | disposed
deriving DecidableEq

/-- Modelled from the spec: the `OutputBitStream` consumed by the encoder is
external; only its monotonically growing written-bit count is relevant
here. -/
structure OutputBitStream where
  written : Nat
deriving DecidableEq

/-- Modelled from the spec: an `EntropyEncoder` holds exactly one bound
bit-stream and a lifecycle phase (`active` until `dispose`). -/
structure EntropyEncoder where
  phase : EncPhase
  bs : OutputBitStream
deriving DecidableEq

/-- Modelled from the spec: `EntropyEncoder::encode` is a pure virtual
declaration (EntropyEncoder.hpp line 29) with no body in the sources.  The
canonical model accepts `len` source bytes from `block` starting at `blkptr`
when the encoder is active and `blkptr + len ≤ |block|`, appends their bits
to the bound bit-stream, and returns the count of accepted source bytes;
otherwise it signals a failure (`none`). -/
def EntropyEncoder.encode (e : EntropyEncoder) (block : List Nat) (blkptr len : Nat) :
    Option (Nat × EntropyEncoder) :=
  if e.phase = EncPhase.active ∧ blkptr + len ≤ block.length then
    some (len, ⟨EncPhase.active, ⟨e.bs.written + 8 * len⟩⟩)
  else none

/-- Modelled from the spec: `dispose` flushes residual coder state and moves
the encoder to the terminal `disposed` phase. -/
def EntropyEncoder.dispose (e : EntropyEncoder) : EntropyEncoder :=
  ⟨EncPhase.disposed, e.bs⟩

/-! ## Helper lemmas -/

/-- A mode whose file-type field is `S_IFREG` passes the code's
`(st_mode & S_IFREG) != 0` test. -/
lemma land_reg_of_isreg {md : Nat} (h : md &&& S_IFMT = S_IFREG) :
    md &&& S_IFREG ≠ 0 := by
  have h2 : md &&& S_IFREG = S_IFREG := by
    have : S_IFMT &&& S_IFREG = S_IFREG := by decide
    rw [← this, ← Nat.land_assoc, h]
    decide
  rw [h2]; decide

/-- A mode whose file-type field is `S_IFDIR` fails the regular-file bit test
and passes the directory bit test. -/
lemma land_dir_of_isdir {md : Nat} (h : md &&& S_IFMT = S_IFDIR) :
    md &&& S_IFREG = 0 ∧ md &&& S_IFDIR ≠ 0 := by
  constructor
  · have : S_IFMT &&& S_IFREG = S_IFREG := by decide
    have h2 : md &&& S_IFREG = S_IFDIR &&& S_IFREG := by
      rw [← this, ← Nat.land_assoc, h]
      decide
    rw [h2]; decide
  · have : S_IFMT &&& S_IFDIR = S_IFDIR := by decide
    have h2 : md &&& S_IFDIR = S_IFDIR &&& S_IFDIR := by
      rw [← this, ← Nat.land_assoc, h]
      decide
    rw [h2]; decide

/-- On a nonempty target, the step-1 index read `target[target.size()-1]` is
in bounds and yields the last character. -/
lemma get_sizeSub1 (t : List Char) (h : t ≠ []) :
    t.get? (sizeSub1 t.length) = some (t.getD (t.length - 1) (Char.ofNat 0)) := by
  have hlen : t.length ≠ 0 := fun hh => h (List.length_eq_zero.mp hh)
  rw [sizeSub1, if_neg hlen, List.get?_eq_getElem?,
    List.getElem?_eq_getElem (by omega), List.getD_eq_getElem _ _ (by omega)]

/-! ## C2: recursion-mode predicate -/

/-- C2: after the single trailing separator has been stripped, the directory
target is treated as non-recursive precisely when it has at least three
characters, its last character is `'.'` and its second-to-last character is
the path separator; in particular `"."` is recursive and `"foo/."` is
non-recursive. -/
theorem claimC2 :
    (∀ t : List Char,
      isRecursiveTarget t = false ↔
        3 ≤ t.length ∧ t.get? (t.length - 1) = some '.' ∧
          t.get? (t.length - 2) = some pathSeparator)
    ∧ isRecursiveTarget (str ".") = true
    ∧ isRecursiveTarget (str "foo/.") = false := by
  refine ⟨fun t => ?_, by decide, by decide⟩
  have hsome : ∀ (i : Nat) (c : Char), i < t.length →
      (t.get? i = some c ↔ t.getD i (Char.ofNat 0) = c) := by
    intro i c hi
    rw [List.get?_eq_getElem?, List.getElem?_eq_getElem hi,
      List.getD_eq_getElem _ _ hi, Option.some_inj]
  unfold isRecursiveTarget
  by_cases h1 : t.length ≤ 2
  · rw [if_pos h1]
    constructor
    · intro h; cases h
    · rintro ⟨h3, -, -⟩; omega
  · rw [if_neg h1]
    by_cases h2 : t.getD (t.length - 1) (Char.ofNat 0) ≠ '.'
    · rw [if_pos h2]
      constructor
      · intro h; cases h
      · rintro ⟨-, hdot, -⟩
        exact absurd ((hsome _ _ (by omega)).mp hdot) h2
    · rw [if_neg h2]
      by_cases h3 : t.getD (t.length - 2) (Char.ofNat 0) ≠ pathSeparator
      · rw [if_pos h3]
        constructor
        · intro h; cases h
        · rintro ⟨-, -, hsep⟩
          exact absurd ((hsome _ _ (by omega)).mp hsep) h3
      · rw [if_neg h3]
        refine iff_of_true rfl ⟨by omega, ?_, ?_⟩
        · exact (hsome _ _ (by omega)).mpr (not_not.mp h2)
        · exact (hsome _ _ (by omega)).mpr (not_not.mp h3)

/-! ## C3: encoder contract -/

/-- C3: on an active encoder, for every valid `(block, blkptr, len)` with
`blkptr + len ≤ |block|`, `encode` accepts and returns exactly `len` source
bytes, and the bound bit-stream's written-bit count does not decrease. -/
theorem claimC3 (e : EntropyEncoder) (block : List Nat) (blkptr len : Nat)
    (hact : e.phase = EncPhase.active) (hlen : blkptr + len ≤ block.length) :
    e.encode block blkptr len =
      some (len, ⟨EncPhase.active, ⟨e.bs.written + 8 * len⟩⟩) ∧
    e.bs.written ≤ e.bs.written + 8 * len := by
  unfold EntropyEncoder.encode
  rw [if_pos ⟨hact, hlen⟩]
  exact ⟨rfl, Nat.le_add_right _ _⟩

/-- Witness for C3 at a concrete active encoder and a 3-byte block. -/
theorem claimC3_witness :
    (⟨EncPhase.active, ⟨5⟩⟩ : EntropyEncoder).encode [0, 1, 2] 0 3 =
      some (3, ⟨EncPhase.active, ⟨29⟩⟩) ∧ (5 : Nat) ≤ 29 := by
  have h := claimC3 ⟨EncPhase.active, ⟨5⟩⟩ [0, 1, 2] 0 3 rfl (by decide)
  exact ⟨h.1.trans (by decide), by decide⟩

/-! ## C9: mkdirAll on absolute paths -/

/-- C9: for every path beginning with the path separator, `mkdirAll` returns
`-1` regardless of the filesystem state and permissions (and leaves the state
untouched): the first loop iteration attempts to create the empty-string
prefix, which fails with an error other than already-exists. -/
theorem claimC9 (fs : MFs) (rest : List Char) :
    mkdirAll fs (pathSeparator :: rest) = (-1, fs) := by
  have h : List.range (pathSeparator :: rest).length =
      0 :: List.map Nat.succ (List.range rest.length) := by
    simpa using List.range_succ_eq_map rest.length
  unfold mkdirAll
  rw [h]
  rfl

/-! ## C1: regular-file targets -/

/-- Concrete filesystem containing a single regular file `d/.h` whose
basename is hidden but whose full path starts with `'d'`. -/
def fsHid : FileSys :=
  ⟨fun p => if p = str "d/.h" then some 33188 else none, fun _ => none⟩

/-- C1 counterexample: `d/.h` is reported by stat as a regular file
(mode 33188, file-type field `S_IFREG`) and its basename `.h` begins with
`'.'`, yet `createFileList` appends it: the code filters on the first
character of the whole target string, not on the basename. -/
theorem claimC1_counterexample :
    fsHid.stat (str "d/.h") = some 33188 ∧ 33188 &&& S_IFMT = S_IFREG ∧
    (basename (str "d/.h")).headD (Char.ofNat 0) = '.' ∧
    createFileListF 1 fsHid (str "d/.h") [] =
      some (CFLOut.ok (str "d/.h") [str "d/.h"]) := by
  refine ⟨by decide, by decide, by decide, by decide⟩

/-- C1 amended: for every target that stat (after the single
trailing-separator strip of step 1) reports as a regular file,
`createFileList` appends the stripped target to the accumulator if and only
if the *first character of the target string* is not `'.'`, and returns
without enumerating any directory (the result does not consult `readDir`:
it holds for every `fs.readDir`, and for every positive fuel). -/
theorem claimC1 (fuel : Nat) (fs : FileSys) (target : List Char)
    (files : List (List Char)) (md : Nat)
    (h0 : target ≠ []) (h1 : step1 target ≠ [])
    (hstat : fs.stat (step1 target) = some md)
    (hreg : md &&& S_IFMT = S_IFREG) :
    createFileListF (fuel + 1) fs target files =
      some (CFLOut.ok (step1 target)
        (if (step1 target).headD (Char.ofNat 0) ≠ '.' then files ++ [step1 target]
         else files)) := by
  obtain ⟨c, cs, hst⟩ : ∃ c cs, step1 target = c :: cs := by
    cases h : step1 target with
    | nil => exact absurd h h1
    | cons c cs => exact ⟨c, cs, rfl⟩
  have hA := get_sizeSub1 target h0
  have hr := land_reg_of_isreg hreg
  have hB : (if target.getD (target.length - 1) (Char.ofNat 0) = pathSeparator
      then target.take (target.length - 1) else target) = step1 target := rfl
  rw [hst] at hstat
  simp only [createFileListF, hA, hB, hst, List.headD_cons]
  simp [hstat, hr]

/-- Witness for C1 amended: a non-hidden regular file `a.txt` is appended. -/
theorem claimC1_witness :
    createFileListF 1
      (⟨fun p => if p = str "a.txt" then some 33188 else none, fun _ => none⟩ : FileSys)
      (str "a.txt") [] = some (CFLOut.ok (str "a.txt") [str "a.txt"]) := by
  have h := claimC1 0
    (⟨fun p => if p = str "a.txt" then some 33188 else none, fun _ => none⟩ : FileSys)
    (str "a.txt") [] 33188 (by decide) (by decide) (by decide) (by decide)
  exact h.trans (by decide)

/-! ## C4: non-recursive directory enumeration -/

/-- The last character of `D ++ [a, b]` (at index `size - 1`) is `b`. -/
lemma getD_append2_last (D : List Char) (a b : Char) :
    (D ++ [a, b]).getD ((D ++ [a, b]).length - 1) (Char.ofNat 0) = b := by
  have hlen : (D ++ [a, b]).length = D.length + 2 := by simp
  rw [hlen]
  have h1 : D.length + 2 - 1 = D.length + 1 := by omega
  rw [h1, List.getD_append_right _ _ _ _ (by omega)]
  have h2 : D.length + 1 - D.length = 1 := by omega
  rw [h2]
  rfl

/-- The second-to-last character of `D ++ [a, b]` (at index `size - 2`) is
`a`. -/
lemma getD_append2_snd (D : List Char) (a b : Char) :
    (D ++ [a, b]).getD ((D ++ [a, b]).length - 2) (Char.ofNat 0) = a := by
  have hlen : (D ++ [a, b]).length = D.length + 2 := by simp
  rw [hlen]
  have h1 : D.length + 2 - 2 = D.length := by omega
  rw [h1, List.getD_append_right _ _ _ _ (by omega)]
  simp

/-- A nonempty directory followed by the `<sep>.` marker is classified as
non-recursive. -/
lemma isRecursiveTarget_marker (D : List Char) (hD : D ≠ []) :
    isRecursiveTarget (D ++ [pathSeparator, '.']) = false := by
  have hlen : (D ++ [pathSeparator, '.']).length = D.length + 2 := by simp
  have hDlen : D.length ≠ 0 := fun hh => hD (List.length_eq_zero.mp hh)
  unfold isRecursiveTarget
  rw [if_neg (by omega), if_neg (by rw [getD_append2_last]; simp),
    if_neg (by rw [getD_append2_snd]; simp)]

/-- Dropping the final character of `D ++ [a, b]` leaves `D ++ [a]`. -/
lemma take_append2 (D : List Char) (a b : Char) :
    (D ++ [a, b]).take ((D ++ [a, b]).length - 1) = D ++ [a] := by
  have h : D ++ [a, b] = (D ++ [a]) ++ [b] := by simp
  rw [h]
  have hlen : ((D ++ [a]) ++ [b]).length - 1 = (D ++ [a]).length := by simp
  rw [hlen, List.take_left]

/-- Step 1 leaves a `<sep>.`-marked target unchanged (it does not end in the
separator). -/
lemma step1_marker (D : List Char) :
    step1 (D ++ [pathSeparator, '.']) = D ++ [pathSeparator, '.'] := by
  unfold step1
  rw [if_neg (by rw [getD_append2_last]; decide)]

/-- In non-recursive mode the entry loop of `createFileList` stats every
entry, appends exactly the non-hidden regular ones, and never calls the
recursive continuation (the equation holds for every `recur`). -/
lemma walkEntries_nonrec (recur : List Char → List (List Char) → Option CFLOut)
    (fs : FileSys) (t : List Char) :
    ∀ (entries files : List (List Char)),
      (∀ n ∈ entries, (fs.stat (t ++ n)).isSome) →
      walkEntries recur fs false t entries files =
        some (CFLOut.ok t (files ++ nonRecListing fs t entries)) := by
  intro entries
  induction entries with
  | nil => intro files _; simp [walkEntries, nonRecListing]
  | cons name rest ih =>
    intro files hall
    obtain ⟨m, hm⟩ : ∃ m, fs.stat (t ++ name) = some m :=
      Option.isSome_iff_exists.mp (hall name (List.mem_cons_self name rest))
    have hrest : ∀ n ∈ rest, (fs.stat (t ++ n)).isSome := fun n hn =>
      hall n (List.mem_cons_of_mem _ hn)
    simp only [walkEntries, hm]
    by_cases hhid : name.headD (Char.ofNat 0) ≠ '.'
    · by_cases hreg2 : m &&& S_IFREG ≠ 0
      · rw [if_pos hhid, if_pos hreg2, ih (files ++ [t ++ name]) hrest]
        simp only [nonRecListing, List.filterMap_cons, hm]
        rw [if_pos ⟨hhid, hreg2⟩]
        simp
      · rw [if_pos hhid, if_neg hreg2, if_neg (by simp), ih files hrest]
        simp only [nonRecListing, List.filterMap_cons, hm]
        rw [if_neg (by tauto)]
    · rw [if_neg hhid, ih files hrest]
      simp only [nonRecListing, List.filterMap_cons, hm]
      rw [if_neg (by tauto)]

/-- C4: on a target `D<sep>.` naming a directory, `createFileList` appends
exactly the non-hidden regular files directly inside `D` (full path
`D<sep>name`, in enumeration order) and never descends into subdirectories:
the result holds for every recursion fuel and does not depend on the
recursive continuation. -/
theorem claimC4 (fuel : Nat) (fs : FileSys) (D : List Char)
    (entries files : List (List Char)) (md : Nat)
    (hD : D ≠ [])
    (hstat : fs.stat (D ++ [pathSeparator, '.']) = some md)
    (hdir : md &&& S_IFMT = S_IFDIR)
    (hread : fs.readDir (D ++ [pathSeparator]) = some entries)
    (hall : ∀ n ∈ entries, (fs.stat ((D ++ [pathSeparator]) ++ n)).isSome) :
    createFileListF (fuel + 1) fs (D ++ [pathSeparator, '.']) files =
      some (CFLOut.ok (D ++ [pathSeparator])
        (files ++ nonRecListing fs (D ++ [pathSeparator]) entries)) := by
  have h0 : D ++ [pathSeparator, '.'] ≠ [] := by simp
  have hA := get_sizeSub1 _ h0
  rw [getD_append2_last] at hA
  have hnr := isRecursiveTarget_marker D hD
  have hnd := land_dir_of_isdir hdir
  have hB : (if ('.' : Char) = pathSeparator
      then (D ++ [pathSeparator, '.']).take ((D ++ [pathSeparator, '.']).length - 1)
      else D ++ [pathSeparator, '.']) = D ++ [pathSeparator, '.'] := by
    rw [if_neg (by decide)]
  simp only [createFileListF, hA, hB, hstat]
  rw [if_neg (not_not_intro hnd.1), if_neg hnd.2, hnr,
    if_neg (by simp), take_append2, hread]
  exact walkEntries_nonrec _ fs _ entries files hall

/-- The example tree of the spec: directory `src` containing regular files
`a.txt`, `b.txt` and a subdirectory `sub` (which contains `c.txt`). -/
def fsTree : FileSys :=
  ⟨fun p =>
      if p = str "src" then some 16877
      else if p = str "src/." then some 16877
      else if p = str "src/.." then some 16877
      else if p = str "src/a.txt" then some 33188
      else if p = str "src/b.txt" then some 33188
      else if p = str "src/sub" then some 16877
      else if p = str "src/sub/c.txt" then some 33188
      else none,
    fun p =>
      if p = str "src/" then some [str ".", str "..", str "a.txt", str "b.txt", str "sub"]
      else if p = str "src/sub/" then some [str ".", str "..", str "c.txt"]
      else none⟩

/-- Witness for C4: on the spec's example tree, `createFileList("src/.")`
yields exactly `[src/a.txt, src/b.txt]` and `sub` is not descended. -/
theorem claimC4_witness :
    createFileListF 1 fsTree (str "src/.") [] =
      some (CFLOut.ok (str "src/") [str "src/a.txt", str "src/b.txt"]) := by
  have h := claimC4 0 fsTree (str "src")
    [str ".", str "..", str "a.txt", str "b.txt", str "sub"] [] 16877
    (by decide) (by decide) (by decide) (by decide) (by decide)
  exact (by decide : createFileListF 1 fsTree (str "src/.") [] =
      createFileListF 1 fsTree (str "src" ++ [pathSeparator, '.']) []).trans
    (h.trans (by decide))

/-! ## C10: stat failure during enumeration -/

/-- If stat fails on some entry, the entry loop raises the open-file error at
the first failing entry and stops, leaving the accumulator with exactly the
files collected from the earlier entries — the stat happens before the
leading-dot filter, so this holds whatever the failing entry's name is. -/
lemma walkEntries_statfail (recur : List Char → List (List Char) → Option CFLOut)
    (fs : FileSys) (t : List Char) :
    ∀ (pre files : List (List Char)) (bad : List Char) (post : List (List Char)),
      (∀ n ∈ pre, (fs.stat (t ++ n)).isSome) →
      fs.stat (t ++ bad) = none →
      walkEntries recur fs false t (pre ++ bad :: post) files =
        some (CFLOut.exc ⟨ErrCode.ERR_OPEN_FILE, t ++ bad⟩ t
          (files ++ nonRecListing fs t pre)) := by
  intro pre
  induction pre with
  | nil =>
    intro files bad post _ hbad
    simp only [List.nil_append, walkEntries, hbad]
    simp [nonRecListing]
  | cons name rest ih =>
    intro files bad post hall hbad
    obtain ⟨m, hm⟩ : ∃ m, fs.stat (t ++ name) = some m :=
      Option.isSome_iff_exists.mp (hall name (List.mem_cons_self name rest))
    have hrest : ∀ n ∈ rest, (fs.stat (t ++ n)).isSome := fun n hn =>
      hall n (List.mem_cons_of_mem _ hn)
    simp only [List.cons_append, walkEntries, hm, List.append_eq]
    by_cases hhid : name.headD (Char.ofNat 0) ≠ '.'
    · by_cases hreg2 : m &&& S_IFREG ≠ 0
      · rw [if_pos hhid, if_pos hreg2, ih (files ++ [t ++ name]) bad post hrest hbad]
        simp only [nonRecListing, List.filterMap_cons, hm]
        rw [if_pos ⟨hhid, hreg2⟩]
        simp
      · rw [if_pos hhid, if_neg hreg2, if_neg (by simp),
          ih files bad post hrest hbad]
        simp only [nonRecListing, List.filterMap_cons, hm]
        rw [if_neg (by tauto)]
    · rw [if_neg hhid, ih files bad post hrest hbad]
      simp only [nonRecListing, List.filterMap_cons, hm]
      rw [if_neg (by tauto)]

/-- C10: during enumeration of a directory target `D<sep>.`, every entry is
stat-ed before the leading-dot filter; if stat fails on an entry — here one
whose name begins with `'.'` and would have been skipped as hidden — the call
raises the open-file error naming that full path and aborts, leaving the
accumulator with exactly the files appended for the entries before it. -/
theorem claimC10 (fuel : Nat) (fs : FileSys) (D bad : List Char)
    (pre post files : List (List Char)) (md : Nat)
    (hD : D ≠ [])
    (hstat : fs.stat (D ++ [pathSeparator, '.']) = some md)
    (hdir : md &&& S_IFMT = S_IFDIR)
    (hread : fs.readDir (D ++ [pathSeparator]) = some (pre ++ bad :: post))
    (hpre : ∀ n ∈ pre, (fs.stat ((D ++ [pathSeparator]) ++ n)).isSome)
    (hbad : fs.stat ((D ++ [pathSeparator]) ++ bad) = none)
    (_hhid : bad.headD (Char.ofNat 0) = '.') :
    createFileListF (fuel + 1) fs (D ++ [pathSeparator, '.']) files =
      some (CFLOut.exc ⟨ErrCode.ERR_OPEN_FILE, (D ++ [pathSeparator]) ++ bad⟩
        (D ++ [pathSeparator])
        (files ++ nonRecListing fs (D ++ [pathSeparator]) pre)) := by
  have h0 : D ++ [pathSeparator, '.'] ≠ [] := by simp
  have hA := get_sizeSub1 _ h0
  rw [getD_append2_last] at hA
  have hnr := isRecursiveTarget_marker D hD
  have hnd := land_dir_of_isdir hdir
  have hB : (if ('.' : Char) = pathSeparator
      then (D ++ [pathSeparator, '.']).take ((D ++ [pathSeparator, '.']).length - 1)
      else D ++ [pathSeparator, '.']) = D ++ [pathSeparator, '.'] := by
    rw [if_neg (by decide)]
  simp only [createFileListF, hA, hB, hstat]
  rw [if_neg (not_not_intro hnd.1), if_neg hnd.2, hnr,
    if_neg (by simp), take_append2, hread]
  exact walkEntries_statfail _ fs _ pre files bad post hpre hbad

/-- Concrete tree for the C10 witness: `src` contains `a.txt` (regular), a
hidden entry `.x` on which stat fails, then `b.txt`. -/
def fsBad : FileSys :=
  ⟨fun p =>
      if p = str "src/." then some 16877
      else if p = str "src/a.txt" then some 33188
      else if p = str "src/b.txt" then some 33188
      else none,
    fun p =>
      if p = str "src/" then some [str "a.txt", str ".x", str "b.txt"]
      else none⟩

/-- Witness for C10: the failing hidden entry `src/.x` aborts the walk after
`src/a.txt` was appended and before `src/b.txt` was reached. -/
theorem claimC10_witness :
    createFileListF 1 fsBad (str "src/.") [] =
      some (CFLOut.exc ⟨ErrCode.ERR_OPEN_FILE, str "src/.x"⟩ (str "src/")
        [str "src/a.txt"]) := by
  have h := claimC10 0 fsBad (str "src") (str ".x")
    [str "a.txt"] [str "b.txt"] [] 16877
    (by decide) (by decide) (by decide) (by decide) (by decide) (by decide) (by decide)
  exact (by decide : createFileListF 1 fsBad (str "src/.") [] =
      createFileListF 1 fsBad (str "src" ++ [pathSeparator, '.']) []).trans
    (h.trans (by decide))

/-! ## C8: mutation of the caller's target string -/

/-- The entry loop never changes the (already normalized) caller-visible
target: any `ok` or `exc` outcome reports exactly the loop's `t`. -/
lemma walkEntries_target (recur : List Char → List (List Char) → Option CFLOut)
    (fs : FileSys) (isRec : Bool) (t : List Char) :
    ∀ (entries files : List (List Char)) (out : CFLOut),
      walkEntries recur fs isRec t entries files = some out →
      (∀ t2 f2, out = CFLOut.ok t2 f2 → t2 = t) ∧
      (∀ e t2 f2, out = CFLOut.exc e t2 f2 → t2 = t) := by
  intro entries
  induction entries with
  | nil =>
    intro files out hout
    simp only [walkEntries, Option.some.injEq] at hout
    subst hout
    refine ⟨fun t2 f2 h => ?_, fun e t2 f2 h => ?_⟩
    · injection h with h1 h2; exact h1.symm
    · cases h
  | cons name rest ih =>
    intro files out hout
    cases hm : fs.stat (t ++ name) with
    | none =>
      simp only [walkEntries, hm, Option.some.injEq] at hout
      subst hout
      refine ⟨fun t2 f2 h => ?_, fun e t2 f2 h => ?_⟩
      · cases h
      · injection h with h1 h2 h3; exact h2.symm
    | some m =>
      simp only [walkEntries, hm] at hout
      by_cases hhid : name.headD (Char.ofNat 0) ≠ '.'
      · rw [if_pos hhid] at hout
        by_cases hreg : m &&& S_IFREG ≠ 0
        · rw [if_pos hreg] at hout
          exact ih _ _ hout
        · rw [if_neg hreg] at hout
          by_cases hdir2 : isRec = true ∧ m &&& S_IFDIR ≠ 0
          · rw [if_pos hdir2] at hout
            cases hr : recur (t ++ name) files with
            | none => rw [hr] at hout; cases hout
            | some out2 =>
              rw [hr] at hout
              cases out2 with
              | ub =>
                simp only [Option.some.injEq] at hout
                subst hout
                refine ⟨fun t2 f2 h => ?_, fun e t2 f2 h => ?_⟩ <;> cases h
              | exc e2 t2' f2' =>
                simp only [Option.some.injEq] at hout
                subst hout
                refine ⟨fun t2 f2 h => ?_, fun e t2 f2 h => ?_⟩
                · cases h
                · injection h with h1 h2 h3; exact h2.symm
              | ok t2' f2' => exact ih _ _ hout
          · rw [if_neg hdir2] at hout
            exact ih _ _ hout
      · rw [if_neg hhid] at hout
        exact ih _ _ hout

/-- C8 amended: on a directory target, every normal or exception outcome
reports the caller's string as the *normalized* directive — in recursive mode
the separator-stripped target with a separator (re-)appended if not already
present, in non-recursive mode with the trailing `'.'` removed.  The
original string is therefore not preserved in general (`"foo"` comes back as
`"foo/"`), though a directive already in normalized form is returned
unchanged (see the counterexample). -/
theorem claimC8 (fuel : Nat) (fs : FileSys) (target : List Char)
    (files : List (List Char)) (md : Nat)
    (h0 : target ≠ []) (h1 : step1 target ≠ [])
    (hstat : fs.stat (step1 target) = some md)
    (hdir : md &&& S_IFMT = S_IFDIR) :
    (∀ t2 f2, createFileListF (fuel + 1) fs target files = some (CFLOut.ok t2 f2) →
      t2 = normalizeDirTarget (step1 target)) ∧
    (∀ e t2 f2, createFileListF (fuel + 1) fs target files = some (CFLOut.exc e t2 f2) →
      t2 = normalizeDirTarget (step1 target)) := by
  have hA := get_sizeSub1 target h0
  have hnd := land_dir_of_isdir hdir
  have hB : (if target.getD (target.length - 1) (Char.ofNat 0) = pathSeparator
      then target.take (target.length - 1) else target) = step1 target := rfl
  by_cases hrec : isRecursiveTarget (step1 target) = true
  · have hA2 := get_sizeSub1 (step1 target) h1
    have hN : (if (step1 target).getD ((step1 target).length - 1) (Char.ofNat 0) ≠ pathSeparator
        then step1 target ++ [pathSeparator] else step1 target) =
        normalizeDirTarget (step1 target) := by
      unfold normalizeDirTarget
      rw [if_pos hrec]
    refine ⟨fun t2 f2 h => ?_, fun e t2 f2 h => ?_⟩ <;>
    · simp only [createFileListF, hA, hB, hstat] at h
      rw [if_neg (not_not_intro hnd.1), if_neg hnd.2, if_pos hrec, hA2] at h
      simp only [hN] at h
      cases hrd : fs.readDir (normalizeDirTarget (step1 target)) with
      | none =>
        rw [hrd] at h
        simp only [Option.some.injEq] at h
        first
        | (injection h with h1 h2 h3; exact h2.symm)
        | cases h
      | some entries =>
        rw [hrd] at h
        have := walkEntries_target (createFileListF fuel fs) fs true
          (normalizeDirTarget (step1 target)) entries files _ h
        first
        | exact this.1 _ _ rfl
        | exact this.2 _ _ _ rfl
  · have hN : (step1 target).take ((step1 target).length - 1) =
        normalizeDirTarget (step1 target) := by
      unfold normalizeDirTarget
      rw [if_neg hrec]
    refine ⟨fun t2 f2 h => ?_, fun e t2 f2 h => ?_⟩ <;>
    · simp only [createFileListF, hA, hB, hstat] at h
      rw [if_neg (not_not_intro hnd.1), if_neg hnd.2, if_neg hrec] at h
      simp only [hN] at h
      cases hrd : fs.readDir (normalizeDirTarget (step1 target)) with
      | none =>
        rw [hrd] at h
        simp only [Option.some.injEq] at h
        first
        | (injection h with h1 h2 h3; exact h2.symm)
        | cases h
      | some entries =>
        rw [hrd] at h
        have := walkEntries_target (createFileListF fuel fs) fs false
          (normalizeDirTarget (step1 target)) entries files _ h
        first
        | exact this.1 _ _ rfl
        | exact this.2 _ _ _ rfl

/-- An empty directory `foo`, reachable both as `"foo"` and as the already
normalized directive `"foo/"`. -/
def fsFoo : FileSys :=
  ⟨fun p => if p = str "foo" then some 16877 else none,
    fun p => if p = str "foo/" then some ([] : List (List Char)) else none⟩

/-- C8 counterexample: on the directory directive `"foo/"` — already in
normalized (recursive) form — the caller's string after the call is exactly
the original `"foo/"`, so the claim's blanket statement that "the original
directive string is not preserved across the call" fails. -/
theorem claimC8_counterexample :
    fsFoo.stat (str "foo") = some 16877 ∧ 16877 &&& S_IFMT = S_IFDIR ∧
    createFileListF 1 fsFoo (str "foo/") [] = some (CFLOut.ok (str "foo/") []) := by
  refine ⟨by decide, by decide, by decide⟩

/-- Witness for C8 amended: on `"foo"` the normalized directive is
`"foo/"`, and the call indeed hands `"foo/"` — not the original `"foo"` —
back to the caller. -/
theorem claimC8_witness :
    (∀ t2 f2, createFileListF 1 fsFoo (str "foo") [] = some (CFLOut.ok t2 f2) →
      t2 = normalizeDirTarget (step1 (str "foo"))) ∧
    normalizeDirTarget (step1 (str "foo")) = str "foo/" ∧
    createFileListF 1 fsFoo (str "foo") [] = some (CFLOut.ok (str "foo/") []) := by
  exact ⟨(claimC8 0 fsFoo (str "foo") [] 16877 (by decide) (by decide) (by decide)
    (by decide)).1, by decide, by decide⟩

/-! ## C6: edge-case targets -/

/-- On a nonempty target whose stripped form fails stat, `createFileList`
reaches step 2 safely and throws the open-file error. -/
lemma createFileListF_statfail_top (fuel : Nat) (fs : FileSys) (t : List Char)
    (files : List (List Char)) (h0 : t ≠ []) (hstat : fs.stat (step1 t) = none) :
    createFileListF (fuel + 1) fs t files =
      some (CFLOut.exc ⟨ErrCode.ERR_OPEN_FILE, step1 t⟩ (step1 t) files) := by
  have hA := get_sizeSub1 t h0
  have hB : (if t.getD (t.length - 1) (Char.ofNat 0) = pathSeparator
      then t.take (t.length - 1) else t) = step1 t := rfl
  simp only [createFileListF, hA, hB, hstat]

/-- A filesystem on which every stat and every opendir fails. -/
def fsNone : FileSys := ⟨fun _ => none, fun _ => none⟩

/-- C6 counterexample: on the empty target, step 1 itself evaluates
`target[target.size()-1]` with the wrapped `size_t` index `2^64 - 1`, an
out-of-bounds `std::string` access (undefined behaviour), before any
filesystem call — so `createFileList` is not well-defined on the empty
target. -/
theorem claimC6_counterexample :
    createFileListF 1 fsNone ([] : List Char) [] = some CFLOut.ub := by decide

/-- C6 amended: a target consisting solely of the separator and a target
ending in multiple separators are sanitized — step 1 strips exactly one
trailing separator and the function proceeds without any out-of-bounds
access (here reaching the stat of the stripped target) — but on the empty
target step 1 itself performs an out-of-bounds string access. -/
theorem claimC6 :
    (∀ (fs : FileSys) (files : List (List Char)) (fuel : Nat),
      createFileListF (fuel + 1) fs ([] : List Char) files = some CFLOut.ub) ∧
    (∀ (fs : FileSys) (files : List (List Char)) (fuel : Nat),
      fs.stat [] = none →
      createFileListF (fuel + 1) fs [pathSeparator] files =
        some (CFLOut.exc ⟨ErrCode.ERR_OPEN_FILE, []⟩ [] files)) ∧
    (∀ (fs : FileSys) (files : List (List Char)) (fuel : Nat) (t : List Char),
      fs.stat (t ++ [pathSeparator]) = none →
      createFileListF (fuel + 1) fs (t ++ [pathSeparator, pathSeparator]) files =
        some (CFLOut.exc ⟨ErrCode.ERR_OPEN_FILE, t ++ [pathSeparator]⟩
          (t ++ [pathSeparator]) files)) := by
  refine ⟨fun fs files fuel => ?_, fun fs files fuel hstat => ?_,
    fun fs files fuel t hstat => ?_⟩
  · have hA : ([] : List Char).get? (sizeSub1 ([] : List Char).length) = none := rfl
    simp only [createFileListF, hA]
  · have hs : step1 [pathSeparator] = [] := rfl
    have h := createFileListF_statfail_top fuel fs [pathSeparator] files
      (by decide) (by rw [hs]; exact hstat)
    rwa [hs] at h
  · have hs : step1 (t ++ [pathSeparator, pathSeparator]) = t ++ [pathSeparator] := by
      unfold step1
      rw [if_pos (getD_append2_last t pathSeparator pathSeparator), take_append2]
    have h := createFileListF_statfail_top fuel fs (t ++ [pathSeparator, pathSeparator])
      files (by simp) (by rw [hs]; exact hstat)
    rwa [hs] at h

/-- Witness for C6 amended: concrete instances of all three conjuncts on
`fsNone`. -/
theorem claimC6_witness :
    createFileListF 1 fsNone ([] : List Char) [] = some CFLOut.ub ∧
    createFileListF 1 fsNone [pathSeparator] [] =
      some (CFLOut.exc ⟨ErrCode.ERR_OPEN_FILE, []⟩ [] []) ∧
    createFileListF 1 fsNone (str "foo" ++ [pathSeparator, pathSeparator]) [] =
      some (CFLOut.exc ⟨ErrCode.ERR_OPEN_FILE, str "foo" ++ [pathSeparator]⟩
        (str "foo" ++ [pathSeparator]) []) := by
  exact ⟨claimC6.1 fsNone [] 0, claimC6.2.1 fsNone [] 0 rfl,
    claimC6.2.2 fsNone [] 0 (str "foo") rfl⟩

/-! ## C5 / C7: mkdirAll -/

/-- Unfolding of `attemptsOf` at a separator index. -/
lemma attemptsOf_cons_sep (path : List Char) (i : Nat) (rest : List Nat)
    (h : path.getD i (Char.ofNat 0) = pathSeparator) :
    attemptsOf path (i :: rest) = path.take i :: attemptsOf path rest := by
  simp only [attemptsOf, List.filterMap_cons]
  rw [if_pos h]

/-- Unfolding of `attemptsOf` at a non-separator index. -/
lemma attemptsOf_cons_nosep (path : List Char) (i : Nat) (rest : List Nat)
    (h : ¬ path.getD i (Char.ofNat 0) = pathSeparator) :
    attemptsOf path (i :: rest) = attemptsOf path rest := by
  simp only [attemptsOf, List.filterMap_cons]
  rw [if_neg h]

/-- Bridge: the index loop of `mkdirAll` performs exactly the creation
attempts on the separator prefixes, in order. -/
lemma mkdirAllAux_eq (path : List Char) :
    ∀ (idxs : List Nat) (fs : MFs),
      mkdirAllAux path idxs fs = processList (attemptsOf path idxs) fs := by
  intro idxs
  induction idxs with
  | nil => intro fs; rfl
  | cons i rest ih =>
    intro fs
    by_cases hsep : path.getD i (Char.ofNat 0) = pathSeparator
    · rw [attemptsOf_cons_sep path i rest hsep]
      simp only [mkdirAllAux, processList]
      rw [if_pos hsep]
      rcases hmk : mkdirM fs (path.take i) with ⟨r, fs2⟩
      cases r
      · exact ih fs2
      · exact ih fs2
      · rfl
    · rw [attemptsOf_cons_nosep path i rest hsep]
      simp only [mkdirAllAux]
      rw [if_neg hsep]
      exact ih fs

/-- `mkdirAll` is the prefix loop followed by the final attempt on the full
path. -/
lemma mkdirAll_eq_loop_then (fs : MFs) (path : List Char) :
    mkdirAll fs path =
      (match processList (attemptsOf path (List.range path.length)) fs with
        | (some r, fs2) => (r, fs2)
        | (none, fs2) =>
          match mkdirM fs2 path with
          | (MkdirRes.ok, fs3) => (0, fs3)
          | (MkdirRes.errExist, fs3) => (0, fs3)
          | (MkdirRes.errOther, fs3) => (-1, fs3)) := by
  unfold mkdirAll
  rw [mkdirAllAux_eq]

/-- If every attempt in the list is benign, the loop completes, creating
exactly the missing ones: permissions are untouched, the directory set grows
monotonically, afterwards every attempted path exists, and nothing outside
the attempts was added. -/
lemma processList_ok :
    ∀ (qs : List (List Char)) (fs : MFs),
      (∀ q ∈ qs, benignAttempt fs q) →
      ∃ fs2, processList qs fs = (none, fs2) ∧ fs2.perm = fs.perm ∧
        (∀ x ∈ fs.dirs, x ∈ fs2.dirs) ∧ (∀ q ∈ qs, q ∈ fs2.dirs) ∧
        (∀ x ∈ fs2.dirs, x ∈ qs ∨ x ∈ fs.dirs) := by
  intro qs
  induction qs with
  | nil =>
    intro fs _
    exact ⟨fs, rfl, rfl, fun x hx => hx, by simp, fun x hx => Or.inr hx⟩
  | cons q rest ih =>
    intro fs hall
    obtain ⟨hne, hq⟩ := hall q (List.mem_cons_self q rest)
    by_cases hin : q ∈ fs.dirs
    · have hmk : mkdirM fs q = (MkdirRes.errExist, fs) := by
        unfold mkdirM; rw [if_neg hne, if_pos hin]
      obtain ⟨fs2, h1, h2, h3, h4, h5⟩ := ih fs (fun p hp => hall p (List.mem_cons_of_mem _ hp))
      refine ⟨fs2, ?_, h2, h3, ?_, ?_⟩
      · simp only [processList, hmk]; exact h1
      · intro p hp
        rcases List.mem_cons.mp hp with hp1 | hp2
        · exact hp1 ▸ h3 q hin
        · exact h4 p hp2
      · intro x hx
        rcases h5 x hx with hx1 | hx2
        · exact Or.inl (List.mem_cons_of_mem _ hx1)
        · exact Or.inr hx2
    · have hperm : fs.perm q = true := hq.resolve_left hin
      have hmk : mkdirM fs q = (MkdirRes.ok, ⟨q :: fs.dirs, fs.perm⟩) := by
        unfold mkdirM; rw [if_neg hne, if_neg hin, if_pos hperm]
      have hall1 : ∀ p ∈ rest, benignAttempt (⟨q :: fs.dirs, fs.perm⟩ : MFs) p := by
        intro p hp
        obtain ⟨hne2, hp2⟩ := hall p (List.mem_cons_of_mem _ hp)
        exact ⟨hne2, hp2.imp (fun h => List.mem_cons_of_mem _ h) id⟩
      obtain ⟨fs2, h1, h2, h3, h4, h5⟩ := ih _ hall1
      refine ⟨fs2, ?_, h2, ?_, ?_, ?_⟩
      · simp only [processList, hmk]; exact h1
      · intro x hx; exact h3 x (List.mem_cons_of_mem _ hx)
      · intro p hp
        rcases List.mem_cons.mp hp with hp1 | hp2
        · exact hp1 ▸ h3 q (List.mem_cons_self q fs.dirs)
        · exact h4 p hp2
      · intro x hx
        rcases h5 x hx with hx1 | hx2
        · exact Or.inl (List.mem_cons_of_mem _ hx1)
        · rcases List.mem_cons.mp hx2 with hx3 | hx4
          · exact Or.inl (hx3 ▸ List.mem_cons_self q rest)
          · exact Or.inr hx4

/-- If some attempt in a duplicate-free list is non-benign, the loop stops
with `-1`. -/
lemma processList_fail :
    ∀ (qs : List (List Char)) (fs : MFs), qs.Nodup →
      (∃ q ∈ qs, ¬ benignAttempt fs q) →
      (processList qs fs).1 = some (-1) := by
  intro qs
  induction qs with
  | nil =>
    intro fs _ h
    obtain ⟨q, hq, -⟩ := h
    exact absurd hq (List.not_mem_nil q)
  | cons q rest ih =>
    intro fs hnd hex
    have hnd2 := (List.nodup_cons.mp hnd).2
    have hqrest := (List.nodup_cons.mp hnd).1
    by_cases hbq : benignAttempt fs q
    · obtain ⟨p, hp, hnb⟩ := hex
      have hp2 : p ∈ rest := by
        rcases List.mem_cons.mp hp with hp1 | hp1
        · exact absurd (hp1 ▸ hbq) hnb
        · exact hp1
      have hqp : q ≠ p := fun h => hqrest (h ▸ hp2)
      obtain ⟨hne, hq⟩ := hbq
      by_cases hin : q ∈ fs.dirs
      · have hmk : mkdirM fs q = (MkdirRes.errExist, fs) := by
          unfold mkdirM; rw [if_neg hne, if_pos hin]
        simp only [processList, hmk]
        exact ih fs hnd2 ⟨p, hp2, hnb⟩
      · have hperm : fs.perm q = true := hq.resolve_left hin
        have hmk : mkdirM fs q = (MkdirRes.ok, ⟨q :: fs.dirs, fs.perm⟩) := by
          unfold mkdirM; rw [if_neg hne, if_neg hin, if_pos hperm]
        have hnb1 : ¬ benignAttempt (⟨q :: fs.dirs, fs.perm⟩ : MFs) p := by
          rintro ⟨hne2, hor⟩
          apply hnb
          refine ⟨hne2, ?_⟩
          rcases hor with hmem | hpm
          · rcases List.mem_cons.mp hmem with h1 | h2
            · exact absurd h1.symm hqp
            · exact Or.inl h2
          · exact Or.inr hpm
        simp only [processList, hmk]
        exact ih _ hnd2 ⟨p, hp2, hnb1⟩
    · have hmk : mkdirM fs q = (MkdirRes.errOther, fs) := by
        by_cases hne : q = []
        · unfold mkdirM; rw [if_pos hne]
        · have hnor : ¬(q ∈ fs.dirs ∨ fs.perm q = true) := fun h => hbq ⟨hne, h⟩
          push_neg at hnor
          unfold mkdirM
          rw [if_neg hne, if_neg hnor.1, if_neg hnor.2]
      simp only [processList, hmk]

/-- If every attempt already exists (and is nonempty), the loop is a no-op:
every call returns `EEXIST` and the state is unchanged. -/
lemma processList_exists :
    ∀ (qs : List (List Char)) (fs : MFs),
      (∀ q ∈ qs, q ∈ fs.dirs ∧ q ≠ []) → processList qs fs = (none, fs) := by
  intro qs
  induction qs with
  | nil => intro fs _; rfl
  | cons q rest ih =>
    intro fs hall
    obtain ⟨hin, hne⟩ := hall q (List.mem_cons_self q rest)
    have hmk : mkdirM fs q = (MkdirRes.errExist, fs) := by
      unfold mkdirM; rw [if_neg hne, if_pos hin]
    simp only [processList, hmk]
    exact ih fs (fun p hp => hall p (List.mem_cons_of_mem _ hp))

/-- Every separator prefix in the attempt list is strictly shorter than the
path. -/
lemma attemptsOf_length_lt (path : List Char) :
    ∀ idxs, (∀ i ∈ idxs, i < path.length) →
      ∀ a ∈ attemptsOf path idxs, a.length < path.length := by
  intro idxs
  induction idxs with
  | nil => intro _ a ha; simp [attemptsOf] at ha
  | cons i rest ih =>
    intro hlt a ha
    by_cases hsep : path.getD i (Char.ofNat 0) = pathSeparator
    · rw [attemptsOf_cons_sep path i rest hsep] at ha
      rcases List.mem_cons.mp ha with ha1 | ha2
      · have hi := hlt i (List.mem_cons_self i rest)
        rw [ha1, List.length_take]
        omega
      · exact ih (fun j hj => hlt j (List.mem_cons_of_mem _ hj)) a ha2
    · rw [attemptsOf_cons_nosep path i rest hsep] at ha
      exact ih (fun j hj => hlt j (List.mem_cons_of_mem _ hj)) a ha

/-- The attempted prefixes have strictly increasing lengths (the loop runs
over increasing indices). -/
lemma attemptsOf_pairwise (path : List Char) :
    ∀ idxs, (∀ i ∈ idxs, i < path.length) → idxs.Pairwise (· < ·) →
      (attemptsOf path idxs).Pairwise (fun a b => a.length < b.length) := by
  intro idxs
  induction idxs with
  | nil => intro _ _; exact List.Pairwise.nil
  | cons i rest ih =>
    intro hlt hpw
    obtain ⟨hlt_all, hrest⟩ := List.pairwise_cons.mp hpw
    have htail := ih (fun j hj => hlt j (List.mem_cons_of_mem _ hj)) hrest
    by_cases hsep : path.getD i (Char.ofNat 0) = pathSeparator
    · rw [attemptsOf_cons_sep path i rest hsep]
      refine List.pairwise_cons.mpr ⟨?_, htail⟩
      intro b hb
      obtain ⟨j, hj, hfj⟩ := List.mem_filterMap.mp hb
      have hjsep : path.getD j (Char.ofNat 0) = pathSeparator := by
        by_contra hc
        rw [if_neg hc] at hfj
        cases hfj
      rw [if_pos hjsep] at hfj
      have hjlen : j < path.length := hlt j (List.mem_cons_of_mem _ hj)
      have hij : i < j := hlt_all j hj
      have hi : i < path.length := hlt i (List.mem_cons_self i rest)
      have hbj : List.take j path = b := by injection hfj
      rw [← hbj, List.length_take, List.length_take]
      omega
    · rw [attemptsOf_cons_nosep path i rest hsep]
      exact htail

/-- The attempts of one `mkdirAll` call are pairwise distinct: the prefixes
have strictly increasing lengths and the full path is longer than all of
them. -/
lemma mkdirAttempts_nodup (path : List Char) : (mkdirAttempts path).Nodup := by
  have hbound : ∀ i ∈ List.range path.length, i < path.length :=
    fun i hi => List.mem_range.mp hi
  have hlen := attemptsOf_length_lt path (List.range path.length) hbound
  have hpw := attemptsOf_pairwise path (List.range path.length) hbound
    (List.pairwise_lt_range path.length)
  unfold mkdirAttempts
  rw [List.nodup_append]
  refine ⟨hpw.imp ?_, by simp, ?_⟩
  · intro a b hab heq
    rw [heq] at hab
    exact absurd hab (lt_irrefl _)
  · intro a ha hb
    have h1 := hlen a ha
    have h2 : a = path := by simpa using hb
    rw [h2] at h1
    exact absurd h1 (lt_irrefl _)

/-- When every attempt is benign, `mkdirAll` succeeds: it returns `0`,
permissions are untouched, the directory set only grows, afterwards every
attempted prefix and the full path exist, and nothing else was created. -/
lemma mkdirAll_ok (fs : MFs) (path : List Char)
    (hall : ∀ q ∈ mkdirAttempts path, benignAttempt fs q) :
    (mkdirAll fs path).1 = 0 ∧
    (mkdirAll fs path).2.perm = fs.perm ∧
    (∀ x ∈ fs.dirs, x ∈ (mkdirAll fs path).2.dirs) ∧
    (∀ q ∈ mkdirAttempts path, q ∈ (mkdirAll fs path).2.dirs) ∧
    (∀ x ∈ (mkdirAll fs path).2.dirs, x ∈ mkdirAttempts path ∨ x ∈ fs.dirs) := by
  have hpathmem : path ∈ mkdirAttempts path := by simp [mkdirAttempts]
  have hallA : ∀ q ∈ attemptsOf path (List.range path.length), benignAttempt fs q :=
    fun q hq => hall q (List.mem_append_left _ hq)
  obtain ⟨hne, hor⟩ := hall path hpathmem
  obtain ⟨fs2, h1, h2, h3, h4, h5⟩ := processList_ok _ fs hallA
  by_cases hin : path ∈ fs2.dirs
  · have hmk : mkdirM fs2 path = (MkdirRes.errExist, fs2) := by
      unfold mkdirM; rw [if_neg hne, if_pos hin]
    have hres : mkdirAll fs path = (0, fs2) := by
      simp only [mkdirAll_eq_loop_then, h1, hmk]
    rw [hres]
    refine ⟨rfl, h2, h3, ?_, ?_⟩
    · intro q hq
      rcases List.mem_append.mp hq with hq1 | hq2
      · exact h4 q hq1
      · have : q = path := by simpa using hq2
        exact this ▸ hin
    · intro x hx
      rcases h5 x hx with hx1 | hx2
      · exact Or.inl (List.mem_append_left _ hx1)
      · exact Or.inr hx2
  · have hperm : fs.perm path = true := hor.resolve_left (fun hmem => hin (h3 path hmem))
    have hperm2 : fs2.perm path = true := by rw [h2]; exact hperm
    have hmk : mkdirM fs2 path = (MkdirRes.ok, ⟨path :: fs2.dirs, fs2.perm⟩) := by
      unfold mkdirM; rw [if_neg hne, if_neg hin, if_pos hperm2]
    have hres : mkdirAll fs path = (0, ⟨path :: fs2.dirs, fs2.perm⟩) := by
      simp only [mkdirAll_eq_loop_then, h1, hmk]
    rw [hres]
    refine ⟨rfl, h2, fun x hx => List.mem_cons_of_mem _ (h3 x hx), ?_, ?_⟩
    · intro q hq
      rcases List.mem_append.mp hq with hq1 | hq2
      · exact List.mem_cons_of_mem _ (h4 q hq1)
      · have : q = path := by simpa using hq2
        exact this ▸ List.mem_cons_self path fs2.dirs
    · intro x hx
      rcases List.mem_cons.mp hx with hx1 | hx2
      · exact Or.inl (hx1 ▸ hpathmem)
      · rcases h5 x hx2 with hx3 | hx4
        · exact Or.inl (List.mem_append_left _ hx3)
        · exact Or.inr hx4

/-- When some attempt is non-benign, `mkdirAll` returns `-1`. -/
lemma mkdirAll_fail (fs : MFs) (path : List Char)
    (hbad : ∃ q ∈ mkdirAttempts path, ¬ benignAttempt fs q) :
    (mkdirAll fs path).1 = -1 := by
  by_cases hA : ∀ q ∈ attemptsOf path (List.range path.length), benignAttempt fs q
  · obtain ⟨bad, hmem, hnb⟩ := hbad
    have hbp : bad = path := by
      rcases List.mem_append.mp hmem with h1 | h2
      · exact absurd (hA bad h1) hnb
      · simpa using h2
    subst hbp
    obtain ⟨fs2, h1, h2, h3, -, h5⟩ := processList_ok _ fs hA
    have hmk : mkdirM fs2 bad = (MkdirRes.errOther, fs2) := by
      by_cases hne : bad = []
      · unfold mkdirM; rw [if_pos hne]
      · have hnor : ¬(bad ∈ fs.dirs ∨ fs.perm bad = true) := fun h => hnb ⟨hne, h⟩
        push_neg at hnor
        have hnin2 : bad ∉ fs2.dirs := by
          intro hx
          rcases h5 bad hx with hx1 | hx2
          · have := attemptsOf_length_lt bad (List.range bad.length)
              (fun i hi => List.mem_range.mp hi) bad hx1
            exact absurd this (lt_irrefl _)
          · exact hnor.1 hx2
        have hnp2 : ¬ fs2.perm bad = true := by rw [h2]; exact hnor.2
        unfold mkdirM
        rw [if_neg hne, if_neg hnin2, if_neg hnp2]
    simp only [mkdirAll_eq_loop_then, h1, hmk]
  · push_neg at hA
    obtain ⟨q, hq, hnb⟩ := hA
    have hndA : (attemptsOf path (List.range path.length)).Nodup := by
      have := mkdirAttempts_nodup path
      unfold mkdirAttempts at this
      exact (List.nodup_append.mp this).1
    have hfail := processList_fail _ fs hndA ⟨q, hq, hnb⟩
    rcases hp : processList (attemptsOf path (List.range path.length)) fs with ⟨r, fs2⟩
    rw [hp] at hfail
    simp only at hfail
    subst hfail
    simp only [mkdirAll_eq_loop_then, hp]

/-- C7: `mkdirAll` returns `-1` precisely when some creation attempt — on a
proper separator prefix of the path or on the full path — fails with an
error other than already-exists (in the model: the path is empty, or it
neither exists initially nor is the caller permitted to create it); when
every attempt is benign (already-exists errors ignored), it returns `0`. -/
theorem claimC7 (fs : MFs) (path : List Char) :
    ((mkdirAll fs path).1 = -1 ↔ ∃ q ∈ mkdirAttempts path, ¬ benignAttempt fs q) ∧
    ((mkdirAll fs path).1 = 0 ↔ ∀ q ∈ mkdirAttempts path, benignAttempt fs q) := by
  by_cases h : ∀ q ∈ mkdirAttempts path, benignAttempt fs q
  · have h0 := (mkdirAll_ok fs path h).1
    constructor
    · refine iff_of_false (fun hc => ?_) ?_
      · rw [h0] at hc; cases hc
      · rintro ⟨q, hq, hnb⟩; exact hnb (h q hq)
    · exact iff_of_true h0 h
  · push_neg at h
    obtain ⟨q, hq, hnb⟩ := h
    have hm1 := mkdirAll_fail fs path ⟨q, hq, hnb⟩
    constructor
    · exact iff_of_true hm1 ⟨q, hq, hnb⟩
    · refine iff_of_false (fun hc => ?_) (fun hc => hnb (hc q hq))
      rw [hm1] at hc; cases hc

/-- C5: if every creation attempt of `mkdirAll path` is one the caller may
perform (each separator prefix and the path itself is nonempty and either
already exists or is permitted), the call returns `0` and afterwards `path`
exists as a directory; a second call on the resulting state returns `0` and
leaves the filesystem completely unchanged (idempotence). -/
theorem claimC5 (fs : MFs) (path : List Char)
    (hall : ∀ q ∈ mkdirAttempts path, benignAttempt fs q) :
    (mkdirAll fs path).1 = 0 ∧
    path ∈ (mkdirAll fs path).2.dirs ∧
    mkdirAll (mkdirAll fs path).2 path = (0, (mkdirAll fs path).2) := by
  have hpathmem : path ∈ mkdirAttempts path := by simp [mkdirAttempts]
  obtain ⟨h0, hperm, hdirs, hatt, hsub⟩ := mkdirAll_ok fs path hall
  refine ⟨h0, hatt path hpathmem, ?_⟩
  set fs2 := (mkdirAll fs path).2 with hfs2
  have hex : ∀ q ∈ attemptsOf path (List.range path.length),
      q ∈ fs2.dirs ∧ q ≠ [] :=
    fun q hq => ⟨hatt q (List.mem_append_left _ hq),
      (hall q (List.mem_append_left _ hq)).1⟩
  have hloop := processList_exists _ fs2 hex
  have hne : path ≠ [] := (hall path hpathmem).1
  have hin : path ∈ fs2.dirs := hatt path hpathmem
  have hmk : mkdirM fs2 path = (MkdirRes.errExist, fs2) := by
    unfold mkdirM; rw [if_neg hne, if_pos hin]
  simp only [mkdirAll_eq_loop_then, hloop, hmk]

/-- The empty filesystem with unrestricted permissions. -/
def mfs0 : MFs := ⟨[], fun _ => true⟩

/-- Witness for C5: creating `a/b` on an empty filesystem succeeds,
afterwards `a/b` exists, and the second call is the identity. -/
theorem claimC5_witness :
    (mkdirAll mfs0 (str "a/b")).1 = 0 ∧
    str "a/b" ∈ (mkdirAll mfs0 (str "a/b")).2.dirs ∧
    mkdirAll (mkdirAll mfs0 (str "a/b")).2 (str "a/b") =
      (0, (mkdirAll mfs0 (str "a/b")).2) := by
  exact claimC5 mfs0 (str "a/b") (by decide)

end KanziIO
